import Mathlib

/-!
# Verification of the cot migration subsystem and session-store backend

This development gives a shallow embedding of the migration planner,
executor, ledger and schema-snapshot data model described by the project
documentation, together with a direct embedding of the Redis session
store (`cot/src/session/store/redis.rs`), and proves the stated
properties about them.

The migration engine itself (`cot::db::migrations`) is not among the
provided source files — only its callers and the macro layer are — so
the planner, executor, ledger and snapshot definitions below are
modelled from the specification; each such definition carries a
`Modelled from the spec` note.  The Redis session store definitions are
translated directly from `cot/src/session/store/redis.rs`.
-/

set_option maxHeartbeats 1000000

namespace Cot

/-- A migration's global identity: the `(app, name)` pair. -/
abbrev NodeId := String × String

/-- Strict lexicographic comparison of character lists, character by
character via the Unicode scalar value (matching byte order on the ASCII
identifiers used for app and migration names). -/
def strLtL : List Char → List Char → Bool
  | [], [] => false
  | [], _ :: _ => true
  | _ :: _, [] => false
  | c :: cs, d :: ds =>
    if c < d then true
    else if d < c then false
    else strLtL cs ds

/-- Strict lexicographic comparison of strings. -/
def strLtB (a b : String) : Bool := strLtL a.data b.data

/-- Lexicographic `(app, name)` comparison used for the deterministic
tie-break in the planner: `a` comes no later than `b` when `a`'s app is
strictly smaller, or the apps are equal and `a`'s name is no larger. -/
def keyLe (a b : NodeId) : Bool :=
  strLtB a.1 b.1 || (decide (a.1 = b.1) && !(strLtB b.2 a.2))

/-- SQL column types of the data model. -/
inductive SqlType
  | int | bigint | text | bool | timestamp | blob
deriving DecidableEq

/-- Literal default values for fields. -/
inductive Literal
  | intLit (i : Int) | textLit (s : String) | boolLit (b : Bool)
deriving DecidableEq

/-- Modelled from the spec: one column of a model —
`{ name, sql_type, nullable, primary_key, unique, default }`.
Immutable once constructed. -/
structure Field where
  name : String
  sqlType : SqlType
  nullable : Bool
  primaryKey : Bool
  uniq : Bool
  dflt : Option Literal
deriving DecidableEq

/-- Modelled from the spec: an immutable description of one model's
fields as of one migration. -/
structure SchemaSnapshot where
  modelName : String
  tableName : String
  fields : List Field
deriving DecidableEq

/-- Modelled from the spec: the closed set of operation variants.  A
custom action is held as a stable identifier resolved at execution time,
so the operation itself stays inspectable data. -/
inductive Operation
  | createModel (snapshot : SchemaSnapshot)
  | deleteModel (tableName : String)
  | addField (tableName : String) (field : Field)
  | removeField (tableName : String) (fieldName : String)
  | alterField (tableName : String) (old new : Field)
  | runCustom (actionId : Nat)
deriving DecidableEq

/-- Modelled from the spec: a named, app-scoped unit bundling an ordered
list of operations plus declared dependencies. -/
structure MigrationNode where
  app : String
  name : String
  dependencies : List NodeId
  operations : List Operation
deriving DecidableEq

/-- The `(app, name)` identity of a node. -/
def idOf (n : MigrationNode) : NodeId := (n.app, n.name)

/-- The identities of a node list. -/
def idsOf (nodes : List MigrationNode) : List NodeId := nodes.map idOf

/-- Modelled from the spec: one row of the migration ledger —
`{ app, name, applied_at }`. -/
structure LedgerEntry where
  app : String
  name : String
  applied_at : Nat
deriving DecidableEq

/-- Modelled from the spec: planner failure conditions. -/
inductive PlanError
  | cycleDetected (ids : List NodeId)
  | missingDependency (node missing : NodeId)
  | duplicateIdentity (id : NodeId)
deriving DecidableEq

/-- Modelled from the spec: executor failure — the node, the index of
the failing operation and its cause. -/
inductive ApplyError
  | operationFailed (node : NodeId) (opIndex : Nat) (cause : String)
deriving DecidableEq

/-- Per-node outcome recorded in the apply report. -/
inductive NodeOutcome
  | success | skipped | failed | notAttempted
deriving DecidableEq

/-! ## Planner -/

/-- Modelled from the spec: the effective dependencies of one node —
its declared dependencies, or, when it declares none, an implicit edge
to the previous migration of the same app in declaration order. -/
def effDepsOf (prev : Option NodeId) (n : MigrationNode) : List NodeId :=
  if n.dependencies.isEmpty then
    match prev with
    | some p => [p]
    | none => []
  else n.dependencies

/-- Helper for `withDeps`: walks the node list in declaration order,
remembering the most recent node of each app. -/
def withDepsGo : List (String × NodeId) → List MigrationNode →
    List (NodeId × List NodeId)
  | _, [] => []
  | lastOfApp, n :: ns =>
    let prev := (lastOfApp.find? (fun p => decide (p.1 = n.app))).map (·.2)
    (idOf n, effDepsOf prev n) :: withDepsGo ((n.app, idOf n) :: lastOfApp) ns

/-- Modelled from the spec: each node's identity paired with its
effective dependency list (declared edges plus the synthesized
intra-app predecessor edge). -/
def withDeps (nodes : List MigrationNode) : List (NodeId × List NodeId) :=
  withDepsGo [] nodes

/-- The effective dependency function of a node set: looks an identity
up in `withDeps` (identities outside the node set have no edges). -/
def depFun (nodes : List MigrationNode) : NodeId → List NodeId :=
  fun id => ((withDeps nodes).find? (fun p => decide (p.1 = id))).elim [] (·.2)

/-- First identity that occurs twice in a list, if any. -/
def findDup : List NodeId → Option NodeId
  | [] => none
  | x :: xs => if x ∈ xs then some x else findDup xs

/-- First `(node, dependency)` pair whose dependency is neither a known
node nor already applied, if any. -/
def findMissing (pairs : List (NodeId × List NodeId))
    (allIds applied : List NodeId) : Option (NodeId × NodeId) :=
  match pairs with
  | [] => none
  | (id, ds) :: rest =>
    match ds.find? (fun d => decide (¬(d ∈ allIds ∨ d ∈ applied))) with
    | some d => some (id, d)
    | none => findMissing rest allIds applied

/-- A node identity is schedulable when each of its effective
dependencies is already satisfied (applied or placed earlier). -/
def schedulable (D : NodeId → List NodeId) (satisfied : List NodeId)
    (id : NodeId) : Bool :=
  (D id).all (fun d => decide (d ∈ satisfied))

/-- The schedulable identities among the unresolved ones. -/
def candidates (D : NodeId → List NodeId) (rem satisfied : List NodeId) :
    List NodeId :=
  rem.filter (schedulable D satisfied)

/-- The candidate with the lexicographically smallest `(app, name)` key. -/
def selectMin : List NodeId → Option NodeId
  | [] => none
  | x :: xs =>
    match selectMin xs with
    | none => some x
    | some m => if keyLe x m then some x else some m

/-- Removes the first occurrence of an identity. -/
def removeId (x : NodeId) : List NodeId → List NodeId
  | [] => []
  | y :: ys => if y = x then ys else y :: removeId x ys

/-- Modelled from the spec: the deterministic topological sort.  At each
step the schedulable unresolved identity with the smallest `(app, name)`
key is placed; if unresolved identities remain while none is
schedulable, the sort fails with `cycleDetected`.  The fuel argument
bounds the iteration count; `plan` supplies the number of pending nodes,
which is exactly the number of steps an acyclic instance needs. -/
def planLoop (D : NodeId → List NodeId) :
    Nat → List NodeId → List NodeId → List NodeId →
    Except PlanError (List NodeId)
  | _, [], _, acc => .ok acc.reverse
  | 0, r :: rs, _, _ => .error (.cycleDetected (r :: rs))
  | fuel + 1, r :: rs, satisfied, acc =>
    match selectMin (candidates D (r :: rs) satisfied) with
    | none => .error (.cycleDetected (r :: rs))
    | some x =>
      planLoop D fuel (removeId x (r :: rs)) (x :: satisfied) (x :: acc)

/-- The identities of the nodes not yet applied. -/
def pendingIds (nodes : List MigrationNode) (applied : List NodeId) :
    List NodeId :=
  (idsOf nodes).filter (fun id => decide (id ∉ applied))

/-- Modelled from the spec:
`plan(all_nodes, applied) -> Result<ordered sequence of (app,name), PlanError>`.
Rejects duplicate identities, then unresolvable dependencies, during
graph construction; then runs the deterministic topological sort over
the pending nodes, with already-applied identities satisfying dependency
edges but excluded from the output. -/
def plan (nodes : List MigrationNode) (applied : List NodeId) :
    Except PlanError (List NodeId) :=
  match findDup (idsOf nodes) with
  | some d => .error (.duplicateIdentity d)
  | none =>
    match findMissing (withDeps nodes) (idsOf nodes) applied with
    | some (n, d) => .error (.missingDependency n d)
    | none =>
      planLoop (depFun nodes) (pendingIds nodes applied).length
        (pendingIds nodes applied) applied []

/-- A dependency graph restricted to the pending identities is cyclic
when some nonempty subset of them has, at every member, an effective
dependency pointing back into the subset (the standard finite-graph
characterization of containing a cycle). -/
def cyclic (D : NodeId → List NodeId) (pending : List NodeId) : Prop :=
  ∃ T : List NodeId, T ≠ [] ∧ (∀ id ∈ T, id ∈ pending) ∧
    ∀ id ∈ T, ∃ d ∈ D id, d ∈ T

/-- An output sequence respects the dependency order relative to an
applied set when every element's effective dependencies are applied or
placed earlier in the sequence. -/
def respects (D : NodeId → List NodeId) :
    List NodeId → List NodeId → Prop
  | _, [] => True
  | satisfied, x :: xs =>
    (∀ d ∈ D x, d ∈ satisfied) ∧ respects D (x :: satisfied) xs

/-! ## Executor and ledger -/

/-- The database state guarded by the executor: the durable schema and
the migration ledger. -/
structure Db where
  schema : List SchemaSnapshot
  ledger : List LedgerEntry
deriving DecidableEq

/-- The `(app, name)` pairs recorded in the ledger. -/
def ledgerIds (db : Db) : List NodeId :=
  db.ledger.map (fun e => (e.app, e.name))

/-- The registry of custom actions: resolves a stable action identifier
to its effect on the schema (or a propagated failure). -/
abbrev CustomEnv := Nat → List SchemaSnapshot → Except String (List SchemaSnapshot)

/-- Looks a table up by name. -/
def findTable (sch : List SchemaSnapshot) (t : String) :
    Option SchemaSnapshot :=
  sch.find? (fun s => decide (s.tableName = t))

/-- Applies a transformation to the named table, failing when the table
does not exist. -/
def mapTable (t : String) (g : SchemaSnapshot → SchemaSnapshot)
    (sch : List SchemaSnapshot) : Except String (List SchemaSnapshot) :=
  if (findTable sch t).isSome then
    .ok (sch.map (fun s => if s.tableName = t then g s else s))
  else .error "no such table"

/-- Modelled from the spec: the abstract effect of one operation on the
durable schema, with `runCustom` resolved through the action registry.
(The SQL backend adapter generating concrete statements is external;
this captures the schema shape it maintains.) -/
def execOp (custom : CustomEnv) :
    Operation → List SchemaSnapshot → Except String (List SchemaSnapshot)
  | .createModel s, sch =>
    if (findTable sch s.tableName).isSome then .error "table exists"
    else .ok (sch ++ [s])
  | .deleteModel t, sch =>
    if (findTable sch t).isSome then
      .ok (sch.filter (fun s => decide (¬ s.tableName = t)))
    else .error "no such table"
  | .addField t f, sch =>
    mapTable t (fun s => { s with fields := s.fields ++ [f] }) sch
  | .removeField t fn, sch =>
    mapTable t
      (fun s => { s with fields := s.fields.filter (fun g => decide (¬ g.name = fn)) })
      sch
  | .alterField t old new, sch =>
    mapTable t
      (fun s =>
        { s with fields := s.fields.map (fun g => if g.name = old.name then new else g) })
      sch
  | .runCustom id, sch => custom id sch

/-- Runs a node's operations in declared order inside its transaction,
returning the failing operation's index and cause on the first error. -/
def execOps (custom : CustomEnv) :
    List Operation → Nat → List SchemaSnapshot →
    Except (Nat × String) (List SchemaSnapshot)
  | [], _, sch => .ok sch
  | op :: ops, i, sch =>
    match execOp custom op sch with
    | .ok sch' => execOps custom ops (i + 1) sch'
    | .error msg => .error (i, msg)

/-- Modelled from the spec: one node's application as a single atomic
unit — all operations run, then the ledger entry is written, and the
whole transaction commits; any failure rolls everything back (the input
state is returned unchanged by the caller). -/
def applyNode (custom : CustomEnv) (t : Nat) (db : Db) (n : MigrationNode) :
    Except (Nat × String) Db :=
  match execOps custom n.operations 0 db.schema with
  | .ok sch' => .ok ⟨sch', db.ledger ++ [⟨n.app, n.name, t⟩]⟩
  | .error e => .error e

/-- Modelled from the spec: the executor.  Applies each node of the plan
in order, one transaction per node; on the first node-level failure it
stops, leaves the state as committed so far, marks the remaining nodes
unattempted and surfaces the error. -/
def applyAll (custom : CustomEnv) :
    Nat → List MigrationNode → Db →
    List (NodeId × NodeOutcome) × Db × Option ApplyError
  | _, [], db => ([], db, none)
  | t, n :: rest, db =>
    match applyNode custom t db n with
    | .ok db' =>
      let r := applyAll custom (t + 1) rest db'
      ((idOf n, .success) :: r.1, r.2)
    | .error (i, msg) =>
      ((idOf n, .failed) :: rest.map (fun m => (idOf m, .notAttempted)), db,
        some (.operationFailed (idOf n) i msg))

/-- The ledger rows a run starting at time `t` writes for a list of
committed nodes: one row per node, `(app, name)` plus the timestamp. -/
def entriesOf : Nat → List MigrationNode → List LedgerEntry
  | _, [] => []
  | t, n :: ns => ⟨n.app, n.name, t⟩ :: entriesOf (t + 1) ns

/-- Looks a node up by identity. -/
def findNode (nodes : List MigrationNode) (id : NodeId) :
    Option MigrationNode :=
  nodes.find? (fun n => decide (idOf n = id))

/-- Modelled from the spec: the apply-all entry point.  Re-derives the
plan from the current ledger, reports the already-applied nodes as
skipped, and executes the pending sequence. -/
def migrate (custom : CustomEnv) (t : Nat) (nodes : List MigrationNode)
    (db : Db) :
    Except PlanError (List (NodeId × NodeOutcome) × Db × Option ApplyError) :=
  match plan nodes (ledgerIds db) with
  | .error e => .error e
  | .ok seq =>
    let toRun := seq.filterMap (findNode nodes)
    let r := applyAll custom t toRun db
    let skipped :=
      (nodes.filter (fun n => decide (idOf n ∈ ledgerIds db))).map
        (fun n => (idOf n, NodeOutcome.skipped))
    .ok (skipped ++ r.1, r.2)

/-! ## Schema snapshots -/

/-- The snapshot invariant: field names pairwise distinct, and exactly
one field marked as the primary key. -/
def snapshotWF (s : SchemaSnapshot) : Prop :=
  (s.fields.map Field.name).Nodup ∧
  (s.fields.filter (fun f => f.primaryKey)).length = 1

/-- Every snapshot of a schema state is well-formed. -/
def schemaWF (sch : List SchemaSnapshot) : Prop := ∀ s ∈ sch, snapshotWF s

/-- Modelled from the spec: snapshot construction by the generated code
feeding this engine (the `model` macro requires the `primary_key`
attribute on exactly one field, and struct field names are distinct);
construction fails when either condition is violated. -/
def mkSnapshot (modelName tableName : String) (fields : List Field) :
    Option SchemaSnapshot :=
  if (fields.map Field.name).Nodup ∧
      (fields.filter (fun f => f.primaryKey)).length = 1 then
    some ⟨modelName, tableName, fields⟩
  else none

/-- The payload conditions under which an operation, as produced by the
snapshot-diffing generator, is well-formed against a schema state: a
created snapshot is well-formed; an added field is fresh and not a
primary key; a removed field is not the primary key; an altered field
keeps its name and primary-key status. -/
def opOK : Operation → List SchemaSnapshot → Prop
  | .createModel s, _ => snapshotWF s
  | .deleteModel _, _ => True
  | .addField t f, sch =>
    ∀ s ∈ sch, s.tableName = t →
      f.name ∉ s.fields.map Field.name ∧ f.primaryKey = false
  | .removeField t fn, sch =>
    ∀ s ∈ sch, s.tableName = t →
      ∀ g ∈ s.fields, g.name = fn → g.primaryKey = false
  | .alterField t old new, sch =>
    new.name = old.name ∧ new.primaryKey = old.primaryKey ∧
      ∀ s ∈ sch, s.tableName = t →
        ∀ g ∈ s.fields, g.name = old.name → g.primaryKey = old.primaryKey
  | .runCustom _, _ => True

/-! ## Redis session store (from `cot/src/session/store/redis.rs`) -/

/-- The key-value state of the Redis backend: serialized session records
indexed by session id. -/
abbrev KV := List (String × String)

/-- Whether a key is present (`EXISTS`). -/
def kvHas (kv : KV) (k : String) : Bool := kv.any (fun p => decide (p.1 = k))

/-- `SET ... NX`: inserts only when the key is absent, reporting whether
the insert happened. -/
def kvSetNX (kv : KV) (k v : String) : Bool × KV :=
  if kvHas kv k then (false, kv) else (true, (k, v) :: kv)

/-- `DEL`: removes any record stored under the key. -/
def kvDel (kv : KV) (k : String) : KV :=
  kv.filter (fun p => decide (¬ p.1 = k))

/-- `GET`: the record stored under the key, if any. -/
def kvGet (kv : KV) (k : String) : Option String :=
  (kv.find? (fun p => decide (p.1 = k))).map (·.2)

/-- The session-store errors relevant to this model (transport and
serialization failures are not modelled). -/
inductive RedisStoreError
  | tooManyIdCollisions (n : Nat)
deriving DecidableEq

/-- The retry loop of `RedisStore::create`: each iteration attempts a
conditional insert under the current id; a collision regenerates the id
from the generator stream and retries; exhausting the iteration budget
yields `TooManyIdCollisions(MAX_COLLISION_RETRIES)`. -/
def createLoop (maxRetries : Nat) (gen : Nat → String) (data : String) :
    Nat → Nat → String → KV → Except RedisStoreError (String × KV)
  | 0, _, _, _ => .error (.tooManyIdCollisions maxRetries)
  | fuel + 1, k, id, kv =>
    match kvSetNX kv id data with
    | (true, kv') => .ok (id, kv')
    | (false, _) => createLoop maxRetries gen data fuel (k + 1) (gen k) kv

/-- `RedisStore::create`: runs the conditional insert for the record's
current id, retrying with regenerated ids, for `0..=MAX_COLLISION_RETRIES`
iterations in total.  `maxRetries` stands for `MAX_COLLISION_RETRIES`
(declared outside the provided sources); `gen` is the stream of
regenerated ids. -/
def RedisStore.create (maxRetries : Nat) (gen : Nat → String)
    (data id : String) (kv : KV) : Except RedisStoreError (String × KV) :=
  createLoop maxRetries gen data (maxRetries + 1) 0 id kv

/-- `RedisStore::delete`: issues `DEL` for the id and succeeds whether
or not a record was present. -/
def RedisStore.delete (id : String) (kv : KV) :
    Except RedisStoreError KV :=
  .ok (kvDel kv id)

/-- `RedisStore::load`: the record stored under the id, if any. -/
def RedisStore.load (id : String) (kv : KV) : Option String :=
  kvGet kv id

/-! ## Concrete fixtures -/

/-- The `User` snapshot of the end-to-end example. -/
def snapUser : SchemaSnapshot :=
  ⟨"User", "user", [⟨"id", .int, false, true, false, none⟩]⟩

/-- The `Post` snapshot of the end-to-end example. -/
def snapPost : SchemaSnapshot :=
  ⟨"Post", "post", [⟨"id", .int, false, true, false, none⟩]⟩

/-- The `email` field added by `A/0002`. -/
def emailField : Field := ⟨"email", .text, false, false, false, none⟩

/-- `A/0001`: creates `User`. -/
def exA1 : MigrationNode := ⟨"A", "0001", [], [.createModel snapUser]⟩

/-- `A/0002`: adds `User.email`, depends on `A/0001`. -/
def exA2 : MigrationNode :=
  ⟨"A", "0002", [("A", "0001")], [.addField "user" emailField]⟩

/-- `B/0001`: creates `Post`, depends on `A/0001`. -/
def exB1 : MigrationNode :=
  ⟨"B", "0001", [("A", "0001")], [.createModel snapPost]⟩

/-- The three-node end-to-end example. -/
def exNodes : List MigrationNode := [exA1, exA2, exB1]

/-- A node whose first operation fails: it re-creates the already
existing `user` table. -/
def failNode : MigrationNode :=
  ⟨"C", "0001", [("A", "0001")], [.createModel snapUser]⟩

/-- The database state after `A/0001` alone has been applied at time 0. -/
def dbA1 : Db := ⟨[snapUser], [⟨"A", "0001", 0⟩]⟩

/-- The `User` snapshot after `A/0002` added the `email` field. -/
def snapUserEmail : SchemaSnapshot :=
  { snapUser with fields := snapUser.fields ++ [emailField] }

/-- The database state after the full example run from the empty state. -/
def db1ex : Db :=
  ⟨[snapUserEmail, snapPost],
   [⟨"A", "0001", 0⟩, ⟨"A", "0002", 1⟩, ⟨"B", "0001", 2⟩]⟩

/-- The report of the full example run from the empty state. -/
def rep1ex : List (NodeId × NodeOutcome) :=
  [(("A", "0001"), .success), (("A", "0002"), .success),
   (("B", "0001"), .success)]

/-- A two-node cyclic fixture: `X/0001` and `Y/0001` depend on each
other. -/
def cycNodes : List MigrationNode :=
  [⟨"X", "0001", [("Y", "0001")], []⟩,
   ⟨"Y", "0001", [("X", "0001")], []⟩]

/-- A custom-action registry that performs no schema change. -/
def custom0 : CustomEnv := fun _ sch => .ok sch

/-- The empty initial database state. -/
def db0 : Db := ⟨[], []⟩

example : plan exNodes [] = .ok [("A", "0001"), ("A", "0002"), ("B", "0001")] := rfl
example : plan exNodes [("A", "0001")] = .ok [("A", "0002"), ("B", "0001")] := rfl
example : (plan cycNodes []).isOk = false := by decide
example : migrate custom0 0 exNodes db0 = .ok (rep1ex, db1ex, none) := rfl

/-! ## Order lemmas for the lexicographic key -/

theorem charConnect {c d : Char} (h1 : ¬ c < d) (h2 : ¬ d < c) : c = d :=
  le_antisymm (not_lt.mp h2) (not_lt.mp h1)

theorem strLtL_irrefl : ∀ l, strLtL l l = false
  | [] => rfl
  | c :: cs => by
    simp only [strLtL, if_neg (lt_irrefl c)]
    exact strLtL_irrefl cs

theorem strLtL_cons_iff (x y : Char) (xs ys : List Char) :
    strLtL (x :: xs) (y :: ys) = true ↔
      x < y ∨ (x = y ∧ strLtL xs ys = true) := by
  simp only [strLtL]
  by_cases h1 : x < y
  · simp [h1]
  · by_cases h2 : y < x
    · refine iff_of_false (by simp [h1, h2]) ?_
      rintro (h | ⟨rfl, _⟩)
      · exact h1 h
      · exact lt_irrefl _ h2
    · have hxy : x = y := charConnect h1 h2
      simp [h1, h2, hxy]

theorem strLtL_trans : ∀ a b c : List Char,
    strLtL a b = true → strLtL b c = true → strLtL a c = true := by
  intro a
  induction a with
  | nil =>
    intro b c hab hbc
    cases b with
    | nil => simp [strLtL] at hab
    | cons y ys =>
      cases c with
      | nil => simp [strLtL] at hbc
      | cons z zs => simp [strLtL]
  | cons x xs ih =>
    intro b c hab hbc
    cases b with
    | nil => simp [strLtL] at hab
    | cons y ys =>
      cases c with
      | nil => simp [strLtL] at hbc
      | cons z zs =>
        rw [strLtL_cons_iff] at hab hbc ⊢
        rcases hab with h | ⟨rfl, h⟩
        · rcases hbc with h' | ⟨rfl, _⟩
          · exact Or.inl (lt_trans h h')
          · exact Or.inl h
        · rcases hbc with h' | ⟨rfl, h'⟩
          · exact Or.inl h'
          · exact Or.inr ⟨rfl, ih _ _ h h'⟩

theorem strLtL_connect : ∀ a b : List Char,
    strLtL a b = false → strLtL b a = false → a = b := by
  intro a
  induction a with
  | nil =>
    intro b hab _
    cases b with
    | nil => rfl
    | cons y ys => simp [strLtL] at hab
  | cons x xs ih =>
    intro b hab hba
    cases b with
    | nil => simp [strLtL] at hba
    | cons y ys =>
      rw [Bool.eq_false_iff, Ne, strLtL_cons_iff] at hab hba
      push_neg at hab hba
      have hxy : x = y := charConnect (not_lt.mpr hab.1) (not_lt.mpr hba.1)
      subst hxy
      have := ih ys (by simpa using hab.2 rfl) (by simpa using hba.2 rfl)
      rw [this]

theorem string_ext {a b : String} (h : a.data = b.data) : a = b := by
  cases a; cases b; exact congrArg String.mk h

theorem strLtB_irrefl (a : String) : strLtB a a = false := strLtL_irrefl a.data

theorem strLtB_trans {a b c : String} (h1 : strLtB a b = true)
    (h2 : strLtB b c = true) : strLtB a c = true :=
  strLtL_trans a.data b.data c.data h1 h2

theorem strLtB_connect {a b : String} (h1 : strLtB a b = false)
    (h2 : strLtB b a = false) : a = b :=
  string_ext (strLtL_connect a.data b.data h1 h2)

theorem strLtB_asymm {a b : String} (h : strLtB a b = true) :
    strLtB b a = false := by
  cases hba : strLtB b a with
  | false => rfl
  | true => have := strLtB_trans h hba; rw [strLtB_irrefl] at this; cases this

theorem keyLe_iff (a b : NodeId) :
    keyLe a b = true ↔
      strLtB a.1 b.1 = true ∨ (a.1 = b.1 ∧ strLtB b.2 a.2 = false) := by
  simp [keyLe, Bool.or_eq_true, Bool.and_eq_true, decide_eq_true_eq,
    Bool.not_eq_true']

theorem keyLe_refl (a : NodeId) : keyLe a a = true := by
  rw [keyLe_iff]
  exact Or.inr ⟨rfl, strLtB_irrefl _⟩

theorem keyLe_total (a b : NodeId) : keyLe a b = true ∨ keyLe b a = true := by
  rw [keyLe_iff, keyLe_iff]
  cases hab : strLtB a.1 b.1 with
  | true => exact Or.inl (Or.inl rfl)
  | false =>
    cases hba : strLtB b.1 a.1 with
    | true => exact Or.inr (Or.inl rfl)
    | false =>
      have h1 : a.1 = b.1 := strLtB_connect hab hba
      cases hn : strLtB b.2 a.2 with
      | false => exact Or.inl (Or.inr ⟨h1, rfl⟩)
      | true => exact Or.inr (Or.inr ⟨h1.symm, strLtB_asymm hn⟩)

theorem keyLe_trans {a b c : NodeId} (h1 : keyLe a b = true)
    (h2 : keyLe b c = true) : keyLe a c = true := by
  rw [keyLe_iff] at h1 h2 ⊢
  rcases h1 with h1 | ⟨e1, n1⟩
  · rcases h2 with h2 | ⟨e2, _⟩
    · exact Or.inl (strLtB_trans h1 h2)
    · exact Or.inl (e2 ▸ h1)
  · rcases h2 with h2 | ⟨e2, n2⟩
    · exact Or.inl (e1 ▸ h2)
    · refine Or.inr ⟨e1.trans e2, ?_⟩
      cases hca : strLtB c.2 a.2 with
      | false => rfl
      | true =>
        cases hab2 : strLtB a.2 b.2 with
        | true =>
          have := strLtB_trans hca hab2
          rw [n2] at this; cases this
        | false =>
          have heq : a.2 = b.2 := strLtB_connect hab2 n1
          rw [← heq] at n2
          rw [hca] at n2; cases n2

/-! ## Selection and bookkeeping lemmas -/

theorem selectMin_eq_none : ∀ {l : List NodeId}, selectMin l = none → l = []
  | [], _ => rfl
  | x :: xs, h => by
    simp only [selectMin] at h
    cases hs : selectMin xs with
    | none => rw [hs] at h; cases h
    | some m =>
      rw [hs] at h
      by_cases hk : keyLe x m = true <;> simp [hk] at h

theorem selectMin_mem : ∀ {l : List NodeId} {x : NodeId},
    selectMin l = some x → x ∈ l
  | [], x, h => by cases h
  | y :: ys, x, h => by
    simp only [selectMin] at h
    cases hs : selectMin ys with
    | none => rw [hs] at h; cases h; exact List.mem_cons_self _ _
    | some m =>
      rw [hs] at h
      by_cases hk : keyLe y m = true
      · simp only [if_pos hk] at h
        cases h
        exact List.mem_cons_self _ _
      · simp only [if_neg hk] at h
        cases h
        exact List.mem_cons_of_mem _ (selectMin_mem hs)

theorem selectMin_le : ∀ {l : List NodeId} {x : NodeId},
    selectMin l = some x → ∀ y ∈ l, keyLe x y = true
  | [], x, h => by cases h
  | z :: zs, x, h => by
    simp only [selectMin] at h
    cases hs : selectMin zs with
    | none =>
      rw [hs] at h
      cases h
      have hz : zs = [] := selectMin_eq_none hs
      subst hz
      intro y hy
      rw [List.mem_singleton] at hy
      subst hy
      exact keyLe_refl _
    | some m =>
      rw [hs] at h
      by_cases hk : keyLe z m = true
      · simp only [if_pos hk] at h
        cases h
        intro y hy
        rcases List.mem_cons.mp hy with rfl | hy
        · exact keyLe_refl _
        · exact keyLe_trans hk (selectMin_le hs y hy)
      · simp only [if_neg hk] at h
        cases h
        intro y hy
        rcases List.mem_cons.mp hy with rfl | hy
        · rcases keyLe_total x y with h' | h'
          · exact h'
          · exact absurd h' hk
        · exact selectMin_le hs y hy

theorem removeId_sublist (x : NodeId) : ∀ l : List NodeId,
    (removeId x l).Sublist l
  | [] => List.Sublist.refl _
  | y :: ys => by
    simp only [removeId]
    by_cases h : y = x
    · simp only [if_pos h]
      exact List.sublist_cons_self _ _
    · simp only [if_neg h]
      exact (removeId_sublist x ys).cons₂ y

theorem removeId_length_lt {x : NodeId} : ∀ {l : List NodeId},
    x ∈ l → (removeId x l).length < l.length
  | [], h => by cases h
  | y :: ys, h => by
    simp only [removeId]
    by_cases hy : y = x
    · simp only [if_pos hy, List.length_cons]
      exact Nat.lt_succ_self _
    · simp only [if_neg hy, List.length_cons]
      have hx : x ∈ ys := by
        rcases List.mem_cons.mp h with h' | h'
        · exact absurd h'.symm hy
        · exact h'
      exact Nat.succ_lt_succ (removeId_length_lt hx)

theorem removeId_perm {x : NodeId} : ∀ {l : List NodeId},
    x ∈ l → l.Perm (x :: removeId x l)
  | [], h => by cases h
  | y :: ys, h => by
    simp only [removeId]
    by_cases hy : y = x
    · subst hy; simp
    · simp only [if_neg hy]
      have hx : x ∈ ys := by
        rcases List.mem_cons.mp h with h' | h'
        · exact absurd h'.symm hy
        · exact h'
      exact ((removeId_perm hx).cons y).trans (List.Perm.swap _ _ _)

theorem removeId_mem_of_ne {x y : NodeId} : ∀ {l : List NodeId},
    y ∈ l → y ≠ x → y ∈ removeId x l
  | [], h, _ => by cases h
  | z :: zs, h, hne => by
    simp only [removeId]
    by_cases hz : z = x
    · simp only [if_pos hz]
      rcases List.mem_cons.mp h with rfl | h'
      · exact absurd hz hne
      · exact h'
    · simp only [if_neg hz]
      rcases List.mem_cons.mp h with rfl | h'
      · exact List.mem_cons_self _ _
      · exact List.mem_cons_of_mem _ (removeId_mem_of_ne h' hne)

theorem findDup_eq_none_iff : ∀ {l : List NodeId},
    findDup l = none ↔ l.Nodup
  | [] => by simp [findDup]
  | x :: xs => by
    simp only [findDup, List.nodup_cons]
    by_cases h : x ∈ xs
    · simp [h]
    · simp [h, findDup_eq_none_iff]

theorem findMissing_eq_none_iff :
    ∀ {pairs : List (NodeId × List NodeId)} {allIds applied : List NodeId},
    findMissing pairs allIds applied = none ↔
      ∀ p ∈ pairs, ∀ d ∈ p.2, d ∈ allIds ∨ d ∈ applied
  | [], allIds, applied => by simp [findMissing]
  | (id, ds) :: rest, allIds, applied => by
    simp only [findMissing]
    cases hf : ds.find? (fun d => decide (¬(d ∈ allIds ∨ d ∈ applied))) with
    | some d =>
      simp only [reduceCtorEq, false_iff]
      intro hall
      have hd := List.find?_some hf
      have hmem := List.mem_of_find?_eq_some hf
      rw [decide_eq_true_eq] at hd
      exact hd (hall _ (List.mem_cons_self _ _) d hmem)
    | none =>
      rw [List.find?_eq_none] at hf
      rw [findMissing_eq_none_iff]
      constructor
      · intro hall p hp d hd
        rcases List.mem_cons.mp hp with rfl | hp'
        · have := hf d hd
          rw [decide_eq_true_eq] at this
          exact not_not.mp this
        · exact hall p hp' d hd
      · intro hall p hp d hd
        exact hall p (List.mem_cons_of_mem _ hp) d hd

/-! ## Dependency-map lemmas -/

theorem withDepsGo_keys : ∀ (last : List (String × NodeId))
    (ns : List MigrationNode),
    (withDepsGo last ns).map (·.1) = idsOf ns
  | _, [] => rfl
  | last, n :: ns => by
    simp only [withDepsGo, List.map_cons, idsOf]
    rw [show (withDepsGo ((n.app, idOf n) :: last) ns).map (·.1) = idsOf ns from
      withDepsGo_keys _ ns]
    rfl

theorem withDeps_keys (nodes : List MigrationNode) :
    (withDeps nodes).map (·.1) = idsOf nodes :=
  withDepsGo_keys [] nodes

theorem find_pair_of_nodup :
    ∀ {pairs : List (NodeId × List NodeId)}, (pairs.map (·.1)).Nodup →
    ∀ {id : NodeId} {ds : List NodeId}, (id, ds) ∈ pairs →
    pairs.find? (fun p => decide (p.1 = id)) = some (id, ds) := by
  intro pairs
  induction pairs with
  | nil => intro _ id ds h; cases h
  | cons hd rest ih =>
    intro hnd id ds hmem
    obtain ⟨id', ds'⟩ := hd
    simp only [List.map_cons, List.nodup_cons] at hnd
    by_cases hi : id' = id
    · subst hi
      rcases List.mem_cons.mp hmem with he | hrest
      · rw [List.find?_cons_of_pos _ (by simp)]
        injection he with h1 h2
        rw [h2]
      · exact absurd (List.mem_map.mpr ⟨(id', ds), hrest, rfl⟩) hnd.1
    · rw [List.find?_cons_of_neg _ (by simp [hi])]
      rcases List.mem_cons.mp hmem with he | hrest
      · injection he with h1 _; exact absurd h1.symm hi
      · exact ih hnd.2 hrest

theorem depFun_of_mem {nodes : List MigrationNode}
    (hnd : (idsOf nodes).Nodup) {id : NodeId} {ds : List NodeId}
    (h : (id, ds) ∈ withDeps nodes) : depFun nodes id = ds := by
  have hk : ((withDeps nodes).map (·.1)).Nodup := by
    rw [withDeps_keys]; exact hnd
  rw [depFun, find_pair_of_nodup hk h]
  rfl

theorem depFun_cases (nodes : List MigrationNode) (id : NodeId) :
    depFun nodes id = [] ∨ (id, depFun nodes id) ∈ withDeps nodes := by
  rw [depFun]
  cases hf : (withDeps nodes).find? (fun p => decide (p.1 = id)) with
  | none => exact Or.inl rfl
  | some p =>
    have hp := List.find?_some hf
    rw [decide_eq_true_eq] at hp
    have hmem := List.mem_of_find?_eq_some hf
    right
    have : (id, p.2) = p := by
      obtain ⟨a, b⟩ := p
      simp only at hp
      rw [hp]
    rw [show (Option.some p).elim [] (·.2) = p.2 from rfl]
    rw [this]
    exact hmem

theorem schedulable_iff (D : NodeId → List NodeId) (sat : List NodeId)
    (id : NodeId) :
    schedulable D sat id = true ↔ ∀ d ∈ D id, d ∈ sat := by
  simp [schedulable, List.all_eq_true, decide_eq_true_eq]

theorem mem_candidates {D : NodeId → List NodeId} {rem sat : List NodeId}
    {x : NodeId} :
    x ∈ candidates D rem sat ↔ x ∈ rem ∧ schedulable D sat x = true := by
  simp [candidates, List.mem_filter]

/-! ## Planner loop invariants -/

theorem planLoop_ok (D : NodeId → List NodeId) :
    ∀ (fuel : Nat) (rem sat acc l : List NodeId),
      rem.length ≤ fuel → rem.Nodup →
      planLoop D fuel rem sat acc = .ok l →
      ∃ out, l = acc.reverse ++ out ∧ out.Perm rem ∧ respects D sat out := by
  intro fuel
  induction fuel with
  | zero =>
    intro rem sat acc l hlen hnd h
    cases rem with
    | nil =>
      simp only [planLoop, Except.ok.injEq] at h
      exact ⟨[], by rw [← h, List.append_nil], List.Perm.refl _, trivial⟩
    | cons r rs => simp at hlen
  | succ n ih =>
    intro rem sat acc l hlen hnd h
    cases rem with
    | nil =>
      simp only [planLoop, Except.ok.injEq] at h
      exact ⟨[], by rw [← h, List.append_nil], List.Perm.refl _, trivial⟩
    | cons r rs =>
      simp only [planLoop] at h
      cases hs : selectMin (candidates D (r :: rs) sat) with
      | none => rw [hs] at h; cases h
      | some x =>
        rw [hs] at h
        obtain ⟨hxrem, hxsched⟩ := mem_candidates.mp (selectMin_mem hs)
        have hlen' : (removeId x (r :: rs)).length ≤ n :=
          Nat.lt_succ_iff.mp (lt_of_lt_of_le (removeId_length_lt hxrem) hlen)
        have hnd' : (removeId x (r :: rs)).Nodup :=
          (removeId_sublist _ _).nodup hnd
        obtain ⟨out', hl, hperm, hresp⟩ := ih _ _ _ _ hlen' hnd' h
        refine ⟨x :: out', ?_, ?_, ?_⟩
        · rw [hl, List.reverse_cons, List.append_assoc]
          rfl
        · exact (hperm.cons x).trans (removeId_perm hxrem).symm
        · exact ⟨(schedulable_iff _ _ _).mp hxsched, hresp⟩

theorem planLoop_error_shape (D : NodeId → List NodeId) :
    ∀ (fuel : Nat) (rem sat acc : List NodeId) (e : PlanError),
      planLoop D fuel rem sat acc = .error e →
      ∃ ids, e = .cycleDetected ids ∧ ids ≠ [] ∧ ∀ i ∈ ids, i ∈ rem := by
  intro fuel
  induction fuel with
  | zero =>
    intro rem sat acc e h
    cases rem with
    | nil => simp [planLoop] at h
    | cons r rs =>
      simp only [planLoop, Except.error.injEq] at h
      exact ⟨r :: rs, h.symm, List.cons_ne_nil _ _, fun i hi => hi⟩
  | succ n ih =>
    intro rem sat acc e h
    cases rem with
    | nil => simp [planLoop] at h
    | cons r rs =>
      simp only [planLoop] at h
      cases hs : selectMin (candidates D (r :: rs) sat) with
      | none =>
        rw [hs] at h
        simp only [Except.error.injEq] at h
        exact ⟨r :: rs, h.symm, List.cons_ne_nil _ _, fun i hi => hi⟩
      | some x =>
        rw [hs] at h
        obtain ⟨ids, he, hne, hsub⟩ := ih _ _ _ _ h
        exact ⟨ids, he, hne,
          fun i hi => (removeId_sublist _ _).subset (hsub i hi)⟩

theorem planLoop_error_cyclic (D : NodeId → List NodeId)
    (pending0 applied : List NodeId)
    (Hcov : ∀ id ∈ pending0, ∀ d ∈ D id, d ∈ pending0 ∨ d ∈ applied) :
    ∀ (fuel : Nat) (rem sat acc : List NodeId) (e : PlanError),
      rem.length ≤ fuel →
      (∀ id ∈ rem, id ∈ pending0) →
      (∀ id ∈ pending0, id ∈ rem ∨ id ∈ sat) →
      (∀ id ∈ applied, id ∈ sat) →
      planLoop D fuel rem sat acc = .error e →
      cyclic D pending0 := by
  intro fuel
  induction fuel with
  | zero =>
    intro rem sat acc e hlen hsub hinv happ h
    cases rem with
    | nil => simp [planLoop] at h
    | cons r rs => simp at hlen
  | succ n ih =>
    intro rem sat acc e hlen hsub hinv happ h
    cases rem with
    | nil => simp [planLoop] at h
    | cons r rs =>
      simp only [planLoop] at h
      cases hs : selectMin (candidates D (r :: rs) sat) with
      | none =>
        refine ⟨r :: rs, List.cons_ne_nil _ _, hsub, ?_⟩
        intro id hid
        have hnc : id ∉ candidates D (r :: rs) sat := by
          intro hmem
          rw [selectMin_eq_none hs] at hmem
          cases hmem
        have hnsched : ¬ ∀ d ∈ D id, d ∈ sat := by
          intro hall
          exact hnc (mem_candidates.mpr
            ⟨hid, (schedulable_iff _ _ _).mpr hall⟩)
        push_neg at hnsched
        obtain ⟨d, hd, hdsat⟩ := hnsched
        refine ⟨d, hd, ?_⟩
        rcases Hcov id (hsub id hid) d hd with hdp | hda
        · rcases hinv d hdp with h' | h'
          · exact h'
          · exact absurd h' hdsat
        · exact absurd (happ d hda) hdsat
      | some x =>
        rw [hs] at h
        obtain ⟨hxrem, _⟩ := mem_candidates.mp (selectMin_mem hs)
        refine ih _ _ _ _ ?_ ?_ ?_ ?_ h
        · exact Nat.lt_succ_iff.mp
            (lt_of_lt_of_le (removeId_length_lt hxrem) hlen)
        · intro id hid
          exact hsub id ((removeId_sublist _ _).subset hid)
        · intro id hid
          rcases hinv id hid with h' | h'
          · by_cases hix : id = x
            · subst hix; exact Or.inr (List.mem_cons_self _ _)
            · exact Or.inl (removeId_mem_of_ne h' hix)
          · exact Or.inr (List.mem_cons_of_mem _ h')
        · intro id hid
          exact List.mem_cons_of_mem _ (happ id hid)

theorem respects_no_cycle (D : NodeId → List NodeId) :
    ∀ (out sat T : List NodeId),
      respects D sat out → T ≠ [] → (∀ t ∈ T, t ∈ out) →
      (∀ t ∈ T, t ∉ sat) → (∀ id ∈ T, ∃ d ∈ D id, d ∈ T) → False := by
  intro out
  induction out with
  | nil =>
    intro sat T _ hne hout _ _
    cases T with
    | nil => exact hne rfl
    | cons t ts => cases hout t (List.mem_cons_self _ _)
  | cons x xs ih =>
    intro sat T hresp hne hout hsat hcyc
    obtain ⟨hx, hrest⟩ := hresp
    by_cases hxT : x ∈ T
    · obtain ⟨d, hd, hdT⟩ := hcyc x hxT
      exact hsat d hdT (hx d hd)
    · refine ih (x :: sat) T hrest hne ?_ ?_ hcyc
      · intro t ht
        rcases List.mem_cons.mp (hout t ht) with rfl | h'
        · exact absurd ht hxT
        · exact h'
      · intro t ht hmem
        rcases List.mem_cons.mp hmem with rfl | h'
        · exact hxT ht
        · exact hsat t ht h'

/-! ## Plan-level lemmas -/

theorem plan_ok_spec {nodes : List MigrationNode} {applied l : List NodeId}
    (h : plan nodes applied = .ok l) :
    (idsOf nodes).Nodup ∧ l.Perm (pendingIds nodes applied) ∧
      respects (depFun nodes) applied l := by
  rw [plan] at h
  cases hd : findDup (idsOf nodes) with
  | some d => rw [hd] at h; cases h
  | none =>
    rw [hd] at h
    cases hm : findMissing (withDeps nodes) (idsOf nodes) applied with
    | some p => obtain ⟨a, b⟩ := p; rw [hm] at h; cases h
    | none =>
      rw [hm] at h
      have hnd : (idsOf nodes).Nodup := findDup_eq_none_iff.mp hd
      have hpnd : (pendingIds nodes applied).Nodup := hnd.filter _
      obtain ⟨out, hl, hperm, hresp⟩ :=
        planLoop_ok (depFun nodes) _ _ _ _ _ (le_refl _) hpnd h
      rw [List.reverse_nil, List.nil_append] at hl
      subst hl
      exact ⟨hnd, hperm, hresp⟩

theorem mem_pendingIds {nodes : List MigrationNode}
    {applied : List NodeId} {id : NodeId} :
    id ∈ pendingIds nodes applied ↔ id ∈ idsOf nodes ∧ id ∉ applied := by
  simp [pendingIds, List.mem_filter]

theorem not_cyclic_of_plan_ok {nodes : List MigrationNode}
    {applied l : List NodeId} (h : plan nodes applied = .ok l) :
    ¬ cyclic (depFun nodes) (pendingIds nodes applied) := by
  obtain ⟨_, hperm, hresp⟩ := plan_ok_spec h
  rintro ⟨T, hne, hsub, hcyc⟩
  refine respects_no_cycle (depFun nodes) l applied T hresp hne ?_ ?_ hcyc
  · intro t ht
    exact hperm.mem_iff.mpr (hsub t ht)
  · intro t ht
    exact (mem_pendingIds.mp (hsub t ht)).2

theorem findMissing_none_of_cov {nodes : List MigrationNode}
    {applied : List NodeId} (hnd : (idsOf nodes).Nodup)
    (hcov : ∀ id ∈ idsOf nodes, ∀ d ∈ depFun nodes id,
      d ∈ idsOf nodes ∨ d ∈ applied) :
    findMissing (withDeps nodes) (idsOf nodes) applied = none := by
  rw [findMissing_eq_none_iff]
  intro p hp d hd
  obtain ⟨id, ds⟩ := p
  have hid : id ∈ idsOf nodes := by
    rw [← withDeps_keys nodes]
    exact List.mem_map.mpr ⟨(id, ds), hp, rfl⟩
  have hds : depFun nodes id = ds := depFun_of_mem hnd hp
  exact hcov id hid d (by rw [hds]; exact hd)

/-! ## Executor lemmas -/

theorem entriesOf_ids : ∀ (t : Nat) (ns : List MigrationNode),
    (entriesOf t ns).map (fun e => (e.app, e.name)) = idsOf ns
  | _, [] => rfl
  | t, n :: ns => by
    simp only [entriesOf, List.map_cons, idsOf]
    rw [show (entriesOf (t + 1) ns).map (fun e => (e.app, e.name)) = idsOf ns
      from entriesOf_ids _ ns]
    rfl

theorem applyNode_ok_state {custom : CustomEnv} {t : Nat} {db db' : Db}
    {n : MigrationNode} (h : applyNode custom t db n = .ok db') :
    db'.ledger = db.ledger ++ [⟨n.app, n.name, t⟩] ∧
      execOps custom n.operations 0 db.schema = .ok db'.schema := by
  rw [applyNode] at h
  cases he : execOps custom n.operations 0 db.schema with
  | ok sch' =>
    rw [he] at h
    cases h
    exact ⟨rfl, rfl⟩
  | error e => rw [he] at h; cases h

theorem applyNode_error_of_execOps {custom : CustomEnv} {t : Nat} {db : Db}
    {n : MigrationNode} {e : Nat × String}
    (h : execOps custom n.operations 0 db.schema = .error e) :
    applyNode custom t db n = .error e := by
  rw [applyNode, h]

theorem applyAll_ok_spec (custom : CustomEnv) :
    ∀ (ns : List MigrationNode) (t : Nat) (db : Db)
      (rep : List (NodeId × NodeOutcome)) (db' : Db),
      applyAll custom t ns db = (rep, db', none) →
      rep = ns.map (fun n => (idOf n, NodeOutcome.success)) ∧
        db'.ledger = db.ledger ++ entriesOf t ns := by
  intro ns
  induction ns with
  | nil =>
    intro t db rep db' h
    simp only [applyAll, Prod.mk.injEq] at h
    exact ⟨h.1.symm, by rw [← h.2.1, entriesOf, List.append_nil]⟩
  | cons n rest ih =>
    intro t db rep db' h
    simp only [applyAll] at h
    cases han : applyNode custom t db n with
    | ok db2 =>
      rw [han] at h
      simp only [Prod.mk.injEq] at h
      obtain ⟨hrep, hr2⟩ := h
      have hrec : applyAll custom (t + 1) rest db2 =
          ((applyAll custom (t + 1) rest db2).1, db', none) := by
        rw [← hr2]
      obtain ⟨hrep', hledg'⟩ := ih _ _ _ _ hrec
      obtain ⟨hledg2, _⟩ := applyNode_ok_state han
      constructor
      · rw [← hrep, hrep']
        rfl
      · rw [hledg', hledg2, entriesOf, List.append_assoc]
        rfl
    | error e =>
      obtain ⟨i, msg⟩ := e
      rw [han] at h
      simp only [Prod.mk.injEq] at h
      cases h.2.2

theorem applyAll_append_ok (custom : CustomEnv) :
    ∀ (p : List MigrationNode) (t : Nat) (db : Db)
      (r1 : List (NodeId × NodeOutcome)) (db1 : Db),
      applyAll custom t p db = (r1, db1, none) →
      ∀ q : List MigrationNode,
        applyAll custom t (p ++ q) db =
          (r1 ++ (applyAll custom (t + p.length) q db1).1,
            (applyAll custom (t + p.length) q db1).2) := by
  intro p
  induction p with
  | nil =>
    intro t db r1 db1 h q
    simp only [applyAll, Prod.mk.injEq] at h
    obtain ⟨h1, h2, _⟩ := h
    subst h1
    subst h2
    simp only [List.nil_append, List.length_nil, Nat.add_zero]
  | cons n rest ih =>
    intro t db r1 db1 h q
    simp only [applyAll] at h
    cases han : applyNode custom t db n with
    | ok db2 =>
      rw [han] at h
      simp only [Prod.mk.injEq] at h
      obtain ⟨hrep, hr2⟩ := h
      have hrec : applyAll custom (t + 1) rest db2 =
          ((applyAll custom (t + 1) rest db2).1, db1, none) := by
        rw [← hr2]
      have h2 := ih _ _ _ _ hrec q
      have ht : t + 1 + rest.length = t + (n :: rest).length := by
        simp only [List.length_cons]; omega
      rw [ht] at h2
      show applyAll custom t (n :: (rest ++ q)) db = _
      simp only [applyAll, han, h2]
      rw [← hrep]
      rfl
    | error e =>
      obtain ⟨i, msg⟩ := e
      rw [han] at h
      simp only [Prod.mk.injEq] at h
      cases h.2.2

theorem applyAll_ledger (custom : CustomEnv) :
    ∀ (ns : List MigrationNode) (t : Nat) (db : Db),
      ∃ p q, ns = p ++ q ∧
        (applyAll custom t ns db).2.1.ledger = db.ledger ++ entriesOf t p ∧
        ((applyAll custom t ns db).2.2 = none → q = []) := by
  intro ns
  induction ns with
  | nil =>
    intro t db
    exact ⟨[], [], rfl, by simp [applyAll, entriesOf], fun _ => rfl⟩
  | cons n rest ih =>
    intro t db
    cases han : applyNode custom t db n with
    | ok db2 =>
      obtain ⟨p, q, hpq, hledg, hnone⟩ := ih (t + 1) db2
      refine ⟨n :: p, q, by rw [hpq]; rfl, ?_, ?_⟩
      · simp only [applyAll, han]
        rw [hledg, (applyNode_ok_state han).1, entriesOf, List.append_assoc]
        rfl
      · intro hn
        apply hnone
        simpa only [applyAll, han] using hn
    | error e =>
      obtain ⟨i, msg⟩ := e
      refine ⟨[], n :: rest, rfl, ?_, ?_⟩
      · simp [applyAll, han, entriesOf]
      · intro hn
        simp [applyAll, han] at hn

/-! ## Migrate lemmas -/

theorem findNode_of_mem {nodes : List MigrationNode} {id : NodeId}
    (h : id ∈ idsOf nodes) :
    ∃ n, findNode nodes id = some n ∧ idOf n = id := by
  obtain ⟨n0, hn0, hid⟩ := List.mem_map.mp h
  have hsome : (nodes.find? (fun n => decide (idOf n = id))).isSome := by
    rw [List.find?_isSome]
    exact ⟨n0, hn0, by simp [hid]⟩
  cases hf : nodes.find? (fun n => decide (idOf n = id)) with
  | none => rw [hf] at hsome; cases hsome
  | some n =>
    have := List.find?_some hf
    rw [decide_eq_true_eq] at this
    exact ⟨n, hf, this⟩

theorem filterMap_findNode_ids {nodes : List MigrationNode} :
    ∀ {seq : List NodeId}, (∀ id ∈ seq, id ∈ idsOf nodes) →
      idsOf (seq.filterMap (findNode nodes)) = seq := by
  intro seq
  induction seq with
  | nil => intro _; rfl
  | cons id rest ih =>
    intro hall
    obtain ⟨n, hf, hid⟩ := findNode_of_mem (hall id (List.mem_cons_self _ _))
    rw [List.filterMap_cons, hf]
    simp only [idsOf, List.map_cons]
    rw [hid,
      show (rest.filterMap (findNode nodes)).map idOf = rest from
        ih fun i hi => hall i (List.mem_cons_of_mem _ hi)]

/-! ## Snapshot invariant lemmas -/

theorem mkSnapshot_wf {m t : String} {fs : List Field} {s : SchemaSnapshot}
    (h : mkSnapshot m t fs = some s) : snapshotWF s := by
  rw [mkSnapshot] at h
  split at h
  · cases h
    exact ‹_›
  · cases h

theorem filter_pk_erase {fn : String} :
    ∀ {fs : List Field},
    (∀ g ∈ fs, g.name = fn → g.primaryKey = false) →
    (fs.filter (fun g => decide (¬ g.name = fn))).filter
        (fun f => f.primaryKey) =
      fs.filter (fun f => f.primaryKey)
  | [], _ => rfl
  | g :: gs, hyp => by
    have ih := filter_pk_erase (fun x hx => hyp x (List.mem_cons_of_mem _ hx))
    by_cases hnm : g.name = fn
    · have hpk : g.primaryKey = false := hyp g (List.mem_cons_self _ _) hnm
      have h1 : (g :: gs).filter (fun g => decide (¬ g.name = fn)) =
          gs.filter (fun g => decide (¬ g.name = fn)) := by
        simp [List.filter_cons, hnm]
      have h2 : (g :: gs).filter (fun f => f.primaryKey) =
          gs.filter (fun f => f.primaryKey) := by
        simp [List.filter_cons, hpk]
      rw [h1, h2, ih]
    · have h1 : (g :: gs).filter (fun g => decide (¬ g.name = fn)) =
          g :: gs.filter (fun g => decide (¬ g.name = fn)) := by
        simp [List.filter_cons, hnm]
      rw [h1, List.filter_cons, List.filter_cons]
      cases hb : g.primaryKey with
      | false =>
        rw [if_neg (by simp [hb]), if_neg (by simp [hb]), ih]
      | true =>
        rw [if_pos (by simp [hb]), if_pos (by simp [hb]), ih]

theorem filter_pk_alter {old new : Field} (hname : new.name = old.name)
    (hpk : new.primaryKey = old.primaryKey) :
    ∀ {fs : List Field},
    (∀ g ∈ fs, g.name = old.name → g.primaryKey = old.primaryKey) →
    ((fs.map (fun g => if g.name = old.name then new else g)).filter
        (fun f => f.primaryKey)).length =
      (fs.filter (fun f => f.primaryKey)).length
  | [], _ => rfl
  | g :: gs, hyp => by
    have ih := filter_pk_alter hname hpk
      (fun x hx => hyp x (List.mem_cons_of_mem _ hx))
    by_cases hnm : g.name = old.name
    · have hg : g.primaryKey = old.primaryKey :=
        hyp g (List.mem_cons_self _ _) hnm
      by_cases hb : old.primaryKey = true
      · simp [List.filter_cons, hnm, hpk, hb, hg, ih]
      · have hb' : old.primaryKey = false := by
          cases h : old.primaryKey
          · rfl
          · exact absurd h hb
        simp [List.filter_cons, hnm, hpk, hb', hg, ih]
    · simp only [List.map_cons, if_neg hnm, List.filter_cons]
      by_cases hb : g.primaryKey = true
      · simp [hb, ih]
      · simp [Bool.of_not_eq_true hb, ih]

theorem map_name_alter {old new : Field} (hname : new.name = old.name) :
    ∀ fs : List Field,
    (fs.map (fun g => if g.name = old.name then new else g)).map Field.name =
      fs.map Field.name
  | [] => rfl
  | g :: gs => by
    by_cases hnm : g.name = old.name
    · simp [hnm, hname, map_name_alter hname gs]
    · simp [hnm, map_name_alter hname gs]

theorem execOp_preserves {custom : CustomEnv} {op : Operation}
    {sch sch' : List SchemaSnapshot}
    (hcustom : ∀ id s s', schemaWF s → custom id s = .ok s' → schemaWF s')
    (hwf : schemaWF sch) (hok : opOK op sch)
    (h : execOp custom op sch = .ok sch') : schemaWF sch' := by
  cases op with
  | createModel s =>
    rw [execOp] at h
    split at h
    · cases h
    · cases h
      intro s0 hs0
      rcases List.mem_append.mp hs0 with h0 | h0
      · exact hwf s0 h0
      · rw [List.mem_singleton] at h0
        subst h0
        exact hok
  | deleteModel t =>
    rw [execOp] at h
    split at h
    · cases h
      intro s0 hs0
      exact hwf s0 (List.mem_of_mem_filter hs0)
    · cases h
  | addField t f =>
    rw [execOp, mapTable] at h
    split at h
    · cases h
      intro s0 hs0
      obtain ⟨s1, hs1, he⟩ := List.mem_map.mp hs0
      by_cases ht : s1.tableName = t
      · rw [if_pos ht] at he
        subst he
        obtain ⟨hfresh, hfpk⟩ := hok s1 hs1 ht
        obtain ⟨hnames, hpk⟩ := hwf s1 hs1
        constructor
        · simp only [List.map_append, List.map_cons, List.map_nil]
          rw [List.nodup_append]
          exact ⟨hnames, List.nodup_singleton _,
            by simpa [List.disjoint_singleton] using hfresh⟩
        · simpa [List.filter_append, List.filter_cons, hfpk] using hpk
      · rw [if_neg ht] at he
        subst he
        exact hwf s1 hs1
    · cases h
  | removeField t fn =>
    rw [execOp, mapTable] at h
    split at h
    · cases h
      intro s0 hs0
      obtain ⟨s1, hs1, he⟩ := List.mem_map.mp hs0
      by_cases ht : s1.tableName = t
      · rw [if_pos ht] at he
        subst he
        obtain ⟨hnames, hpk⟩ := hwf s1 hs1
        constructor
        · exact ((List.filter_sublist _).map Field.name).nodup hnames
        · rw [filter_pk_erase (hok s1 hs1 ht)]
          exact hpk
      · rw [if_neg ht] at he
        subst he
        exact hwf s1 hs1
    · cases h
  | alterField t old new =>
    rw [execOp, mapTable] at h
    obtain ⟨hname, hpk, hfield⟩ := hok
    split at h
    · cases h
      intro s0 hs0
      obtain ⟨s1, hs1, he⟩ := List.mem_map.mp hs0
      by_cases ht : s1.tableName = t
      · rw [if_pos ht] at he
        subst he
        obtain ⟨hnames, hpkc⟩ := hwf s1 hs1
        constructor
        · rw [map_name_alter hname]
          exact hnames
        · rw [filter_pk_alter hname hpk (hfield s1 hs1 ht)]
          exact hpkc
      · rw [if_neg ht] at he
        subst he
        exact hwf s1 hs1
    · cases h
  | runCustom id =>
    exact hcustom id sch sch' hwf h

/-! ## Redis store lemmas -/

theorem createLoop_all_collide {maxRetries : Nat} {gen : Nat → String}
    {data : String} {kv : KV} (hall : ∀ j, kvHas kv (gen j) = true) :
    ∀ (fuel k : Nat) (id : String), kvHas kv id = true →
      createLoop maxRetries gen data fuel k id kv =
        .error (.tooManyIdCollisions maxRetries) := by
  intro fuel
  induction fuel with
  | zero => intro k id _; rfl
  | succ n ih =>
    intro k id hid
    simp only [createLoop, kvSetNX, hid, if_true]
    exact ih (k + 1) (gen k) (hall k)

theorem kvDel_idem (kv : KV) (k : String) :
    kvDel (kvDel kv k) k = kvDel kv k := by
  induction kv with
  | nil => rfl
  | cons p ps ih =>
    by_cases h : p.1 = k
    · simpa [kvDel, h] using ih
    · simpa [kvDel, h] using ih

theorem kvGet_kvDel (kv : KV) (k : String) : kvGet (kvDel kv k) k = none := by
  induction kv with
  | nil => rfl
  | cons p ps ih =>
    by_cases h : p.1 = k
    · simpa [kvDel, h] using ih
    · simpa [kvDel, kvGet, List.find?_cons, h] using ih

theorem kvHas_kvDel (kv : KV) (k : String) : kvHas (kvDel kv k) k = false := by
  induction kv with
  | nil => rfl
  | cons p ps ih =>
    by_cases h : p.1 = k
    · simpa [kvDel, h] using ih
    · simpa [kvDel, kvHas, h] using ih

theorem plan_ok_checks {nodes : List MigrationNode} {applied l : List NodeId}
    (h : plan nodes applied = .ok l) :
    findDup (idsOf nodes) = none ∧
      findMissing (withDeps nodes) (idsOf nodes) applied = none := by
  rw [plan] at h
  cases hd : findDup (idsOf nodes) with
  | some d => rw [hd] at h; cases h
  | none =>
    rw [hd] at h
    cases hm : findMissing (withDeps nodes) (idsOf nodes) applied with
    | some p => obtain ⟨a, b⟩ := p; rw [hm] at h; cases h
    | none => exact ⟨rfl, rfl⟩

theorem findMissing_mono {pairs : List (NodeId × List NodeId)}
    {allIds applied applied' : List NodeId}
    (h : findMissing pairs allIds applied = none)
    (hsub : ∀ id ∈ applied, id ∈ applied') :
    findMissing pairs allIds applied' = none := by
  rw [findMissing_eq_none_iff] at h ⊢
  intro p hp d hd
  rcases h p hp d hd with h' | h'
  · exact Or.inl h'
  · exact Or.inr (hsub d h')

/-! ## Claims -/

/-- C1: for every set of migration nodes with pairwise-distinct
identities and resolvable dependencies whose pending dependency graph is
acyclic, and every applied set, `plan` (a total function, hence
terminating) returns an ordered sequence containing every pending node
exactly once, in which each node appears only after all of its effective
dependencies — each dependency being either earlier in the sequence or
in the applied set. -/
theorem C1_plan_complete (nodes : List MigrationNode) (applied : List NodeId)
    (hnd : (idsOf nodes).Nodup)
    (hcov : ∀ id ∈ idsOf nodes, ∀ d ∈ depFun nodes id,
      d ∈ idsOf nodes ∨ d ∈ applied)
    (hacyc : ¬ cyclic (depFun nodes) (pendingIds nodes applied)) :
    ∃ l, plan nodes applied = .ok l ∧ l.Perm (pendingIds nodes applied) ∧
      respects (depFun nodes) applied l := by
  have hd : findDup (idsOf nodes) = none := findDup_eq_none_iff.mpr hnd
  have hm : findMissing (withDeps nodes) (idsOf nodes) applied = none :=
    findMissing_none_of_cov hnd hcov
  cases hp : plan nodes applied with
  | ok l => exact ⟨l, rfl, (plan_ok_spec hp).2⟩
  | error e =>
    exfalso
    rw [plan, hd, hm] at hp
    refine hacyc (planLoop_error_cyclic (depFun nodes)
      (pendingIds nodes applied) applied ?_ _ _ _ _ _ (le_refl _)
      (fun id h => h) (fun id h => Or.inl h) (fun id h => h) hp)
    intro id hid d hd'
    by_cases hda : d ∈ applied
    · exact Or.inr hda
    · rcases hcov id (mem_pendingIds.mp hid).1 d hd' with h' | h'
      · exact Or.inl (mem_pendingIds.mpr ⟨h', hda⟩)
      · exact absurd h' hda

/-- Witness for C1 at the three-node example with an empty applied
set. -/
theorem C1_plan_complete_witness :
    ∃ l, plan exNodes [] = .ok l ∧ l.Perm (pendingIds exNodes []) ∧
      respects (depFun exNodes) [] l :=
  C1_plan_complete exNodes [] (by decide) (by decide)
    (not_cyclic_of_plan_ok
      (show plan exNodes [] =
        .ok [("A", "0001"), ("A", "0002"), ("B", "0001")] from rfl))

/-- C2: if any operation of a node fails during apply, the node's
transaction is rolled back (the returned state is exactly the state
before that node began), no ledger entry is written for that node (the
final ledger ids are the pre-run ids plus exactly the successful earlier
nodes), and no node later in the plan is attempted in the same run (they
are all reported `notAttempted`). -/
theorem C2_apply_atomic (custom : CustomEnv) (t : Nat)
    (p : List MigrationNode) (n : MigrationNode) (rest : List MigrationNode)
    (db : Db) (rep1 : List (NodeId × NodeOutcome)) (db1 : Db)
    (k : Nat) (msg : String)
    (hpre : applyAll custom t p db = (rep1, db1, none))
    (hfail : execOps custom n.operations 0 db1.schema = .error (k, msg)) :
    applyAll custom t (p ++ n :: rest) db =
      (rep1 ++ (idOf n, NodeOutcome.failed) ::
          rest.map (fun m => (idOf m, NodeOutcome.notAttempted)),
        db1, some (.operationFailed (idOf n) k msg)) ∧
    ledgerIds db1 = ledgerIds db ++ idsOf p := by
  constructor
  · rw [applyAll_append_ok custom p t db rep1 db1 hpre (n :: rest)]
    have hstep : applyAll custom (t + p.length) (n :: rest) db1 =
        ((idOf n, NodeOutcome.failed) ::
            rest.map (fun m => (idOf m, NodeOutcome.notAttempted)),
          db1, some (.operationFailed (idOf n) k msg)) := by
      simp only [applyAll, applyNode_error_of_execOps hfail]
    rw [hstep]
  · have hs := applyAll_ok_spec custom p t db rep1 db1 hpre
    rw [ledgerIds, hs.2, List.map_append, entriesOf_ids]
    rfl

/-- Witness for C2: after `A/0001` succeeds from the empty state, a node
re-creating the `user` table fails at operation 0 and `B/0001` is not
attempted. -/
theorem C2_apply_atomic_witness :
    (applyAll custom0 0 ([exA1] ++ failNode :: [exB1]) db0 =
      ([(("A", "0001"), NodeOutcome.success)] ++
          (idOf failNode, NodeOutcome.failed) ::
          [exB1].map (fun m => (idOf m, NodeOutcome.notAttempted)),
        dbA1, some (.operationFailed (idOf failNode) 0 "table exists")) ∧
      ledgerIds dbA1 = ledgerIds db0 ++ idsOf [exA1]) :=
  C2_apply_atomic custom0 0 [exA1] failNode [exB1] db0
    [(("A", "0001"), NodeOutcome.success)] dbA1 0 "table exists" rfl rfl

/-- C3: `plan` is deterministic — two calls on the same input return the
same sequence; at each step of the topological sort the loop advances
with exactly the `selectMin` of the schedulable candidates, and
`selectMin` returns the candidate with the lexicographically smallest
`(app, name)` key; the three-node example with an empty applied set
plans to exactly `[A/0001, A/0002, B/0001]`. -/
theorem C3_plan_deterministic :
    (∀ (nodes : List MigrationNode) (applied : List NodeId),
      plan nodes applied = plan nodes applied) ∧
    (∀ (D : NodeId → List NodeId) (fuel : Nat) (rem sat acc : List NodeId)
        (x : NodeId),
      selectMin (candidates D rem sat) = some x →
      planLoop D (fuel + 1) rem sat acc =
        planLoop D fuel (removeId x rem) (x :: sat) (x :: acc)) ∧
    (∀ (l : List NodeId) (x : NodeId), selectMin l = some x →
      x ∈ l ∧ ∀ y ∈ l, keyLe x y = true) ∧
    plan exNodes [] = .ok [("A", "0001"), ("A", "0002"), ("B", "0001")] := by
  refine ⟨fun _ _ => rfl, ?_, ?_, rfl⟩
  · intro D fuel rem sat acc x hs
    cases rem with
    | nil => cases hs
    | cons r rs => simp only [planLoop, hs]
  · intro l x hs
    exact ⟨selectMin_mem hs, selectMin_le hs⟩

/-- Witness for C3: the first step of the example's sort places
`A/0001`, and among `{B/0001, A/0002}` the selection returns `A/0002`,
the lexicographically smaller key. -/
theorem C3_plan_deterministic_witness :
    (planLoop (depFun exNodes) (2 + 1) (pendingIds exNodes []) [] [] =
      planLoop (depFun exNodes) 2
        (removeId ("A", "0001") (pendingIds exNodes []))
        (("A", "0001") :: []) (("A", "0001") :: [])) ∧
    (("A", "0002") ∈ [(("B", "0001") : NodeId), ("A", "0002")] ∧
      ∀ y ∈ [(("B", "0001") : NodeId), ("A", "0002")],
        keyLe ("A", "0002") y = true) :=
  ⟨C3_plan_deterministic.2.1 (depFun exNodes) 2 (pendingIds exNodes [])
      [] [] ("A", "0001") rfl,
    C3_plan_deterministic.2.2.1 [("B", "0001"), ("A", "0002")]
      ("A", "0002") rfl⟩

/-- C4: for every node set with pairwise-distinct identities and
resolvable dependencies whose pending dependency graph is cyclic, `plan`
returns `cycleDetected` carrying a nonempty set of involved (pending,
unresolvable) node ids, and never returns any ordering. -/
theorem C4_plan_cycle (nodes : List MigrationNode) (applied : List NodeId)
    (hnd : (idsOf nodes).Nodup)
    (hcov : ∀ id ∈ idsOf nodes, ∀ d ∈ depFun nodes id,
      d ∈ idsOf nodes ∨ d ∈ applied)
    (hcyc : cyclic (depFun nodes) (pendingIds nodes applied)) :
    ∃ ids, plan nodes applied = .error (.cycleDetected ids) ∧ ids ≠ [] ∧
      (∀ i ∈ ids, i ∈ pendingIds nodes applied) ∧
      ∀ l, plan nodes applied ≠ .ok l := by
  have hd : findDup (idsOf nodes) = none := findDup_eq_none_iff.mpr hnd
  have hm : findMissing (withDeps nodes) (idsOf nodes) applied = none :=
    findMissing_none_of_cov hnd hcov
  cases hp : plan nodes applied with
  | ok l => exact absurd hcyc (not_cyclic_of_plan_ok hp)
  | error e =>
    have hp' : planLoop (depFun nodes) (pendingIds nodes applied).length
        (pendingIds nodes applied) applied [] = .error e := by
      rw [← hp, plan, hd, hm]
    obtain ⟨ids, he, hne, hsub⟩ := planLoop_error_shape _ _ _ _ _ _ hp'
    subst he
    exact ⟨ids, rfl, hne, hsub, fun l hl => Except.noConfusion hl⟩

/-- Witness for C4 at the two-node cyclic fixture. -/
theorem C4_plan_cycle_witness :
    ∃ ids, plan cycNodes [] = .error (.cycleDetected ids) ∧ ids ≠ [] ∧
      (∀ i ∈ ids, i ∈ pendingIds cycNodes []) ∧
      ∀ l, plan cycNodes [] ≠ .ok l :=
  C4_plan_cycle cycNodes [] (by decide) (by decide)
    ⟨[("X", "0001"), ("Y", "0001")], by decide, by decide, by decide⟩

/-- C5: apply is idempotent — after a run of `migrate` completes with no
error, invoking it again on the same node set against the updated state
re-derives an empty plan (zero operations are performed, whatever the
custom-action registry or clock), returns the state unchanged, and
reports every node as already applied (skipped). -/
theorem C5_apply_idempotent (custom custom' : CustomEnv) (t t' : Nat)
    (nodes : List MigrationNode) (db : Db)
    (rep : List (NodeId × NodeOutcome)) (db1 : Db)
    (h : migrate custom t nodes db = .ok (rep, db1, none)) :
    migrate custom' t' nodes db1 =
      .ok (nodes.map (fun n => (idOf n, NodeOutcome.skipped)), db1, none) ∧
    plan nodes (ledgerIds db1) = .ok [] := by
  rw [migrate] at h
  cases hp : plan nodes (ledgerIds db) with
  | error e => rw [hp] at h; cases h
  | ok seq =>
    rw [hp] at h
    simp only [Except.ok.injEq, Prod.mk.injEq] at h
    obtain ⟨hrep, hr2⟩ := h
    have hrun : applyAll custom t (seq.filterMap (findNode nodes)) db =
        ((applyAll custom t (seq.filterMap (findNode nodes)) db).1,
          db1, none) := by
      rw [← hr2]
    obtain ⟨hnd, hperm, _⟩ := plan_ok_spec hp
    have hseqsub : ∀ id ∈ seq, id ∈ idsOf nodes := by
      intro id hid
      exact (mem_pendingIds.mp (hperm.mem_iff.mp hid)).1
    have htoRun : idsOf (seq.filterMap (findNode nodes)) = seq :=
      filterMap_findNode_ids hseqsub
    have hledg1 : ledgerIds db1 = ledgerIds db ++ seq := by
      have hs := applyAll_ok_spec custom _ _ _ _ _ hrun
      rw [ledgerIds, hs.2, List.map_append, entriesOf_ids, htoRun]
      rfl
    have hall : ∀ n ∈ nodes, idOf n ∈ ledgerIds db1 := by
      intro n hn
      rw [hledg1]
      by_cases ha : idOf n ∈ ledgerIds db
      · exact List.mem_append.mpr (Or.inl ha)
      · refine List.mem_append.mpr (Or.inr ?_)
        exact hperm.mem_iff.mpr
          (mem_pendingIds.mpr ⟨List.mem_map.mpr ⟨n, hn, rfl⟩, ha⟩)
    have hpend : pendingIds nodes (ledgerIds db1) = [] := by
      rw [pendingIds, List.filter_eq_nil_iff]
      intro id hid
      obtain ⟨n, hn, rfl⟩ := List.mem_map.mp hid
      simp [hall n hn]
    have hplan2 : plan nodes (ledgerIds db1) = .ok [] := by
      have hd : findDup (idsOf nodes) = none := findDup_eq_none_iff.mpr hnd
      have hm := (plan_ok_checks hp).2
      have hm2 : findMissing (withDeps nodes) (idsOf nodes)
          (ledgerIds db1) = none := by
        refine findMissing_mono hm ?_
        intro id hid
        rw [hledg1]
        exact List.mem_append.mpr (Or.inl hid)
      rw [plan, hd, hm2, hpend]
      rfl
    refine ⟨?_, hplan2⟩
    rw [migrate, hplan2]
    have hskip : nodes.filter (fun n => decide (idOf n ∈ ledgerIds db1)) =
        nodes := by
      rw [List.filter_eq_self]
      intro n hn
      simp [hall n hn]
    simp only [List.filterMap_nil, applyAll, hskip, List.append_nil]

/-- Witness for C5: re-running the completed example run performs
nothing and reports all three nodes skipped. -/
theorem C5_apply_idempotent_witness :
    migrate custom0 7 exNodes db1ex =
      .ok (exNodes.map (fun n => (idOf n, NodeOutcome.skipped)),
        db1ex, none) ∧
    plan exNodes (ledgerIds db1ex) = .ok [] :=
  C5_apply_idempotent custom0 custom0 0 7 exNodes db0 rep1ex db1ex rfl

/-- C6: every node whose identity is in the applied set is excluded from
the sequence `plan` returns, yet still satisfies dependency edges of
other nodes (an identity all of whose dependencies are applied is
schedulable); re-invoking `plan` on the three-node example with
`applied = {A/0001}` yields exactly `[A/0002, B/0001]`. -/
theorem C6_applied_excluded :
    (∀ (nodes : List MigrationNode) (applied : List NodeId)
        (l : List NodeId), plan nodes applied = .ok l →
      ∀ id ∈ l, id ∉ applied) ∧
    (∀ (D : NodeId → List NodeId) (sat : List NodeId) (id : NodeId),
      (∀ d ∈ D id, d ∈ sat) → schedulable D sat id = true) ∧
    plan exNodes [("A", "0001")] = .ok [("A", "0002"), ("B", "0001")] := by
  refine ⟨?_, ?_, rfl⟩
  · intro nodes applied l h id hid
    obtain ⟨_, hperm, _⟩ := plan_ok_spec h
    exact (mem_pendingIds.mp (hperm.mem_iff.mp hid)).2
  · intro D sat id h
    exact (schedulable_iff _ _ _).mpr h

/-- Witness for C6: in the example with `A/0001` applied, the planned
`A/0002` is not in the applied set, and `A/0002` (whose only dependency
is applied) is schedulable. -/
theorem C6_applied_excluded_witness :
    (("A", "0002") ∉ ([("A", "0001")] : List NodeId)) ∧
      schedulable (depFun exNodes) [("A", "0001")] ("A", "0002") = true :=
  ⟨C6_applied_excluded.1 exNodes [("A", "0001")]
      [("A", "0002"), ("B", "0001")] rfl ("A", "0002") (by decide),
    C6_applied_excluded.2.1 (depFun exNodes) [("A", "0001")]
      ("A", "0002") (by decide)⟩

/-- C7: identifier collisions in the Redis session store's `create` are
tolerated via bounded retries with a hard cap — whenever the conditional
insert finds the id already present, the id is regenerated and the
insert retried; once the `0..=MAX_COLLISION_RETRIES` iteration budget is
exhausted, `create` returns `TooManyIdCollisions(MAX_COLLISION_RETRIES)`
rather than retrying further. -/
theorem C7_create_collision_retry :
    (∀ (maxRetries : Nat) (gen : Nat → String) (data : String)
        (fuel k : Nat) (id : String) (kv : KV),
      kvHas kv id = true →
      createLoop maxRetries gen data (fuel + 1) k id kv =
        createLoop maxRetries gen data fuel (k + 1) (gen k) kv) ∧
    (∀ (maxRetries : Nat) (gen : Nat → String) (data id : String) (kv : KV),
      kvHas kv id = true → (∀ j, kvHas kv (gen j) = true) →
      RedisStore.create maxRetries gen data id kv =
        .error (.tooManyIdCollisions maxRetries)) := by
  constructor
  · intro maxRetries gen data fuel k id kv hid
    simp only [createLoop, kvSetNX, hid, if_true]
  · intro maxRetries gen data id kv hid hall
    exact createLoop_all_collide hall _ _ _ hid

/-- Witness for C7: with a store holding ids `a` and `b` and a generator
that always produces `a`, creating under id `b` retries with `a` and,
with a cap of 2, fails with `TooManyIdCollisions 2`. -/
theorem C7_create_collision_retry_witness :
    (createLoop 2 (fun _ => "a") "payload" (0 + 1) 0 "b"
        [("a", "x"), ("b", "y")] =
      createLoop 2 (fun _ => "a") "payload" 0 (0 + 1) "a"
        [("a", "x"), ("b", "y")]) ∧
    (RedisStore.create 2 (fun _ => "a") "payload" "b"
        [("a", "x"), ("b", "y")] = .error (.tooManyIdCollisions 2)) :=
  ⟨C7_create_collision_retry.1 2 (fun _ => "a") "payload" 0 0 "b"
      [("a", "x"), ("b", "y")] (by decide),
    C7_create_collision_retry.2 2 (fun _ => "a") "payload" "b"
      [("a", "x"), ("b", "y")] (by decide) (fun _ => rfl)⟩

/-- C8: the ledger is modelled as a dedicated table of
`(app, name, applied_at)` rows; a run only ever appends to it — the
final ledger is the initial ledger followed by exactly one row per
committed node of a prefix of the plan (created at that node's commit,
carrying its `(app, name)` pair and timestamp), rows are never mutated
or deleted, the whole plan commits when no error occurred, and
distinct runs' rows stay pairwise distinct (one row per applied
migration). -/
theorem C8_ledger_append_only (custom : CustomEnv) (t : Nat)
    (ns : List MigrationNode) (db : Db)
    (hnd : (ledgerIds db ++ idsOf ns).Nodup) :
    ∃ p q, ns = p ++ q ∧
      (applyAll custom t ns db).2.1.ledger = db.ledger ++ entriesOf t p ∧
      (entriesOf t p).map (fun e => (e.app, e.name)) = idsOf p ∧
      ((applyAll custom t ns db).2.2 = none → q = []) ∧
      (ledgerIds (applyAll custom t ns db).2.1).Nodup := by
  obtain ⟨p, q, hpq, hledg, hnone⟩ := applyAll_ledger custom ns t db
  refine ⟨p, q, hpq, hledg, entriesOf_ids t p, hnone, ?_⟩
  have hgoal : ledgerIds (applyAll custom t ns db).2.1 =
      ledgerIds db ++ idsOf p := by
    rw [ledgerIds, hledg, List.map_append, entriesOf_ids]
    rfl
  rw [hgoal]
  have hsubl : (ledgerIds db ++ idsOf p).Sublist
      (ledgerIds db ++ idsOf ns) := by
    refine List.Sublist.append_left ?_ _
    rw [hpq]
    simp only [idsOf, List.map_append]
    exact List.sublist_append_left _ _
  exact hsubl.nodup hnd

/-- Witness for C8 at the example run from the empty state. -/
theorem C8_ledger_append_only_witness :
    ∃ p q, exNodes = p ++ q ∧
      (applyAll custom0 0 exNodes db0).2.1.ledger =
        db0.ledger ++ entriesOf 0 p ∧
      (entriesOf 0 p).map (fun e => (e.app, e.name)) = idsOf p ∧
      ((applyAll custom0 0 exNodes db0).2.2 = none → q = []) ∧
      (ledgerIds (applyAll custom0 0 exNodes db0).2.1).Nodup :=
  C8_ledger_append_only custom0 0 exNodes db0 (by decide)

/-- C9: every snapshot produced by the modelled construction satisfies
the invariant — field names pairwise distinct and exactly one
`primary_key` field — and every schema operation (with well-formed
payload, and custom actions that preserve well-formedness) preserves
the invariant of every snapshot it constructs or consumes. -/
theorem C9_snapshot_invariant :
    (∀ (m t : String) (fs : List Field) (s : SchemaSnapshot),
      mkSnapshot m t fs = some s → snapshotWF s) ∧
    (∀ (custom : CustomEnv) (op : Operation)
        (sch sch' : List SchemaSnapshot),
      (∀ id s s', schemaWF s → custom id s = .ok s' → schemaWF s') →
      schemaWF sch → opOK op sch → execOp custom op sch = .ok sch' →
      schemaWF sch') :=
  ⟨fun _ _ _ _ h => mkSnapshot_wf h,
    fun _ _ _ _ hc hwf hok h => execOp_preserves hc hwf hok h⟩

/-- Witness for C9: the `User` snapshot construction is well-formed, and
creating `Post` on a schema holding `User` preserves well-formedness. -/
theorem C9_snapshot_invariant_witness :
    snapshotWF snapUser ∧ schemaWF [snapUser, snapPost] :=
  ⟨C9_snapshot_invariant.1 "User" "user" snapUser.fields snapUser rfl,
    C9_snapshot_invariant.2 custom0 (.createModel snapPost) [snapUser]
      [snapUser, snapPost]
      (fun _ s s' hwf h => (Except.ok.inj h) ▸ hwf)
      (by
        intro s hs
        rw [List.mem_singleton] at hs
        subst hs
        exact ⟨by decide, by decide⟩)
      ⟨by decide, by decide⟩ rfl⟩

/-- C10: deleting a session from the Redis store is idempotent at the
public interface — for every session id, `delete` returns success
whether or not a record with that id exists, deleting the same id twice
in a row succeeds both times, and no record remains for that id. -/
theorem C10_delete_idempotent (id : String) (kv : KV) :
    RedisStore.delete id kv = .ok (kvDel kv id) ∧
    RedisStore.delete id (kvDel kv id) = .ok (kvDel kv id) ∧
    RedisStore.load id (kvDel kv id) = none ∧
    kvHas (kvDel kv id) id = false := by
  refine ⟨rfl, ?_, kvGet_kvDel kv id, kvHas_kvDel kv id⟩
  rw [RedisStore.delete, kvDel_idem]

end Cot
